import Mathlib

/-!
Shallow embedding of `src/main.py` of the jfrog-artifactory-cleaner
repository (the retention decision engine of `JFrogCleaner.clean_old_images`,
the `delete_image_tag` executor adapter, the statistics record, and the
policy-resolution code of `main`).

External collaborators (the HTTP catalog listing, the per-image tag listing
and the live DELETE request) are parameters:
  - `catalog`  models the result of `get_images`;
  - `tagsOf`   models `get_image_tags` per image name;
  - `deleteOk` models the success of the live `session.delete` call per path;
  - `now`      models `datetime.now(timezone.utc)` as one fixed instant
               (epoch seconds).
Exceptions that the Python code does not catch (the `ValueError` of
`datetime.fromisoformat` on an unparsable string, and the `TypeError` of
comparing a naive datetime with the aware cutoff) are modelled with
`Except.error`, which propagates out of the run exactly as the uncaught
Python exception does.
-/

/-- The `ImageTag` dataclass: tag identifier, full path, raw `lastModified`
string as returned by the storage API. -/
structure ImageTag where
  tag : String
  path : String
  modified : String
deriving DecidableEq

/-- The `PerImageSettings` dataclass. -/
structure PerImageSettings where
  days_old : Nat
  keep_minimum : Nat
deriving DecidableEq

/-- The `CleanupStatistics` dataclass (all four counters). -/
structure CleanupStatistics where
  checked : Nat
  deleted : Nat
  kept : Nat
  errors : Nat
deriving DecidableEq

/-- `CleanupStatistics()` with the dataclass field defaults: all zero. -/
def statsZero : CleanupStatistics := ⟨0, 0, 0, 0⟩

/-- `CleanupStatistics.add`: pairwise field addition (the Python method
mutates `self`; the embedding returns the updated value). -/
def CleanupStatistics.add (s o : CleanupStatistics) : CleanupStatistics :=
  ⟨s.checked + o.checked, s.deleted + o.deleted, s.kept + o.kept, s.errors + o.errors⟩

/-- Models Python `s.replace("Z", "+00:00")`: every `'Z'` character is
replaced by the five characters `+00:00`. -/
def replaceZ (s : String) : String :=
  ⟨s.data.foldr
    (fun c acc =>
      if c = 'Z' then '+' :: '0' :: '0' :: ':' :: '0' :: '0' :: acc else c :: acc)
    []⟩

/-- Numeric value of a decimal digit character, `none` otherwise. -/
def charDigit (c : Char) : Option Nat :=
  if c.isDigit then some (c.toNat - 48) else none

/-- Two-digit decimal number from two characters. -/
def digits2 (a b : Char) : Option Nat := do
  let x ← charDigit a
  let y ← charDigit b
  pure (10 * x + y)

/-- Four-digit decimal number from four characters. -/
def digits4 (a b c d : Char) : Option Nat := do
  let x ← charDigit a
  let y ← charDigit b
  let z ← charDigit c
  let w ← charDigit d
  pure (1000 * x + 100 * y + 10 * z + w)

/-- Gregorian leap-year test. -/
def isLeapYear (y : Int) : Bool :=
  (y % 4 == 0 && y % 100 != 0) || y % 400 == 0

/-- Number of days of a month. -/
def monthLength (y : Int) (m : Nat) : Nat :=
  if m = 2 then (if isLeapYear y then 29 else 28)
  else if m = 4 ∨ m = 6 ∨ m = 9 ∨ m = 11 then 30
  else 31

/-- Days from the Unix epoch to the civil date `y-m-d` (the standard
days-from-civil algorithm, truncating integer division). -/
def daysFromCivil (y : Int) (m d : Nat) : Int :=
  let yy : Int := if m ≤ 2 then y - 1 else y
  let era : Int := (if 0 ≤ yy then yy else yy - 399) / 400
  let yoe : Int := yy - era * 400
  let mp : Nat := (m + 9) % 12
  let doy : Int := ((153 * mp + 2) / 5 + d - 1 : Nat)
  let doe : Int := yoe * 365 + yoe / 4 - yoe / 100 + doy
  era * 146097 + doe - 719468

/-- Epoch seconds of a UTC civil instant. -/
def epochSeconds (y : Int) (mo d h mi s : Nat) : Int :=
  daysFromCivil y mo d * 86400 + (h * 3600 + mi * 60 + s : Nat)

/-- Models `datetime.fromisoformat` restricted to the shape the cleaner
feeds it after the `Z` replacement: `YYYY-MM-DDTHH:MM:SS+00:00`, with
calendar range validation, yielding epoch seconds.  Every other string is
`none`: this covers both a string `fromisoformat` rejects (`ValueError`)
and a naive timestamp without an offset, whose later comparison with the
aware cutoff raises `TypeError`; in both cases the per-tag evaluation
raises, which the embedding propagates as `Except.error`. -/
def fromIsoUTC (s : String) : Option Int :=
  match s.data with
  | [y1, y2, y3, y4, a1, m1, m2, a2, d1, d2, sep, h1, h2, a3, n1, n2, a4, x1, x2,
     pl, o1, o2, a5, o3, o4] =>
    if a1 = '-' ∧ a2 = '-' ∧ sep = 'T' ∧ a3 = ':' ∧ a4 = ':' ∧ pl = '+' ∧
       o1 = '0' ∧ o2 = '0' ∧ a5 = ':' ∧ o3 = '0' ∧ o4 = '0' then do
      let y ← digits4 y1 y2 y3 y4
      let mo ← digits2 m1 m2
      let d ← digits2 d1 d2
      let h ← digits2 h1 h2
      let mi ← digits2 n1 n2
      let sec ← digits2 x1 x2
      if 1 ≤ mo ∧ mo ≤ 12 ∧ 1 ≤ d ∧ d ≤ monthLength (y : Int) mo ∧
         h ≤ 23 ∧ mi ≤ 59 ∧ sec ≤ 59 then
        some (epochSeconds (y : Int) mo d h mi sec)
      else none
    else none
  | _ => none

/-- The per-tag timestamp the loop body computes:
`datetime.fromisoformat(tag_info.modified.replace("Z", "+00:00"))`. -/
def tagDate (t : ImageTag) : Option Int :=
  fromIsoUTC (replaceZ t.modified)

/-- Lexicographic code-point comparison of character lists: the order
Python uses to compare strings. -/
def charListLE : List Char → List Char → Bool
  | [], _ => true
  | _ :: _, [] => false
  | a :: as, b :: bs =>
    if a < b then true
    else if b < a then false
    else charListLE as bs

/-- Python string comparison `a <= b` (code-point lexicographic). -/
def strLE (a b : String) : Bool := charListLE a.data b.data

theorem charListLE_total (x y : List Char) :
    charListLE x y = true ∨ charListLE y x = true := by
  induction x generalizing y with
  | nil => left; rfl
  | cons a as ih =>
    cases y with
    | nil => right; rfl
    | cons b bs =>
      rcases lt_trichotomy a b with h | h | h
      · left; simp [charListLE, h]
      · subst h
        rcases ih bs with h2 | h2
        · left; simp [charListLE, lt_irrefl, h2]
        · right; simp [charListLE, lt_irrefl, h2]
      · right; simp [charListLE, h]

theorem charListLE_trans (x y z : List Char) (h1 : charListLE x y = true)
    (h2 : charListLE y z = true) : charListLE x z = true := by
  induction x generalizing y z with
  | nil => rfl
  | cons a as ih =>
    cases y with
    | nil => simp [charListLE] at h1
    | cons b bs =>
      cases z with
      | nil => simp [charListLE] at h2
      | cons c cs =>
        rcases lt_trichotomy a b with hab | hab | hab
        · rcases lt_trichotomy b c with hbc | hbc | hbc
          · simp [charListLE, lt_trans hab hbc]
          · subst hbc; simp [charListLE, hab]
          · rcases lt_trichotomy a c with hac | hac | hac
            · simp [charListLE, hac]
            · subst hac; simp [charListLE, hbc, asymm hbc] at h2
            · simp [charListLE, hbc, asymm hbc] at h2
        · subst hab
          rcases lt_trichotomy a c with hac | hac | hac
          · simp [charListLE, hac]
          · subst hac
            simp [charListLE, lt_irrefl] at h1 h2 ⊢
            exact ih bs cs h1 h2
          · simp [charListLE, hac, asymm hac] at h2
        · simp [charListLE, hab, asymm hab] at h1

theorem charListLE_antisymm (x y : List Char) (h1 : charListLE x y = true)
    (h2 : charListLE y x = true) : x = y := by
  induction x generalizing y with
  | nil =>
    cases y with
    | nil => rfl
    | cons b bs => simp [charListLE] at h2
  | cons a as ih =>
    cases y with
    | nil => simp [charListLE] at h1
    | cons b bs =>
      rcases lt_trichotomy a b with hab | hab | hab
      · simp [charListLE, hab, asymm hab] at h2
      · subst hab
        simp [charListLE, lt_irrefl] at h1 h2
        rw [ih bs h1 h2]
      · simp [charListLE, hab, asymm hab] at h1

/-- The sort relation of `tags.sort(key=lambda x: x.modified, reverse=True)`:
descending on the raw `modified` string (non-strict, so that the stable
insertion keeps the input order of equal keys, as Python's stable sort
does). -/
def tagGE (a b : ImageTag) : Prop := strLE b.modified a.modified = true

instance : DecidableRel tagGE :=
  fun a b => inferInstanceAs (Decidable (strLE b.modified a.modified = true))

instance : IsTotal ImageTag tagGE :=
  ⟨fun a b =>
    (charListLE_total b.modified.data a.modified.data).imp (fun h => h) (fun h => h)⟩

instance : IsTrans ImageTag tagGE :=
  ⟨fun _ _ _ h1 h2 => charListLE_trans _ _ _ h2 h1⟩

/-- Descending order on the raw `modified` strings, as a relation on the
strings themselves. -/
def strGE (a b : String) : Prop := strLE b a = true

instance : IsAntisymm String strGE :=
  ⟨fun a b h1 h2 => by
    cases a with
    | mk da =>
      cases b with
      | mk db => exact congrArg String.mk (charListLE_antisymm da db h2 h1)⟩

/-- `tags.sort(key=lambda x: x.modified, reverse=True)`: stable sort,
newest raw string first. -/
def sortTagsDesc (l : List ImageTag) : List ImageTag :=
  l.insertionSort tagGE

/-- `delete_image_tag(image_path, dry_run)`.  Returns the success boolean
together with the list of HTTP DELETE requests issued (empty in dry-run,
which only prints; one request in live mode, successful when `deleteOk`
says so). -/
def delete_image_tag (deleteOk : String → Bool) (image_path : String)
    (dry_run : Bool) : Bool × List String :=
  if dry_run then (true, [])
  else (deleteOk image_path, [image_path])

/-- One iteration of the `for tag_info in tags_to_check` loop body of
`clean_old_images`: increment `checked`, parse the timestamp (an
unparsable one raises — `Except.error`), compare with the cutoff, either
call the executor and count `deleted`/`errors`, or count `kept`.
The result carries the updated statistics, the tags passed to
`delete_image_tag`, and the HTTP DELETE requests issued. -/
def processTag (deleteOk : String → Bool) (dry_run : Bool) (cutoff : Int)
    (st : CleanupStatistics) (t : ImageTag) :
    Except String (CleanupStatistics × List ImageTag × List String) :=
  let st1 : CleanupStatistics := ⟨st.checked + 1, st.deleted, st.kept, st.errors⟩
  match tagDate t with
  | none => .error t.modified
  | some d =>
    if d < cutoff then
      let r := delete_image_tag deleteOk t.path dry_run
      if r.1 then .ok (⟨st1.checked, st1.deleted + 1, st1.kept, st1.errors⟩, [t], r.2)
      else .ok (⟨st1.checked, st1.deleted, st1.kept, st1.errors + 1⟩, [t], r.2)
    else .ok (⟨st1.checked, st1.deleted, st1.kept + 1, st1.errors⟩, [], [])

/-- The whole `for tag_info in tags_to_check` loop: left-to-right over the
candidate tags, threading the statistics, propagating an uncaught
exception. -/
def processTags (deleteOk : String → Bool) (dry_run : Bool) (cutoff : Int) :
    CleanupStatistics → List ImageTag →
    Except String (CleanupStatistics × List ImageTag × List String)
  | st, [] => .ok (st, [], [])
  | st, t :: ts =>
    match processTag deleteOk dry_run cutoff st t with
    | .error e => .error e
    | .ok (st1, ex1, h1) =>
      match processTags deleteOk dry_run cutoff st1 ts with
      | .error e => .error e
      | .ok (st2, ex2, h2) => .ok (st2, ex1 ++ ex2, h1 ++ h2)

/-- The per-image settings resolution at the top of the image loop
(`per_image_settings.get(image_name)`: both fields from the entry when one
exists, otherwise both defaults). -/
def resolveSettings (per : String → Option PerImageSettings)
    (days_old keep_minimum : Nat) (image_name : String) : Nat × Nat :=
  match per image_name with
  | some s => (s.days_old, s.keep_minimum)
  | none => (days_old, keep_minimum)

/-- The per-image cutoff:
`datetime.now(timezone.utc) - timedelta(days=img_days_old)`
(`timedelta` days are exactly 86400 seconds). -/
def imageCutoff (per : String → Option PerImageSettings)
    (days_old keep_minimum : Nat) (now : Int) (image_name : String) : Int :=
  now - ((resolveSettings per days_old keep_minimum image_name).1 : Int) * 86400

/-- The body of the `for image_name in images` loop of `clean_old_images`:
resolve the settings, compute the cutoff, fetch the tags (`continue` on an
empty list, which `get_image_tags` also returns on a fetch error), sort
newest raw string first, drop the keep-minimum floor, process the
candidates. -/
def processImage (tagsOf : String → List ImageTag) (deleteOk : String → Bool)
    (now : Int) (days_old keep_minimum : Nat) (dry_run : Bool)
    (per : String → Option PerImageSettings)
    (st : CleanupStatistics) (image_name : String) :
    Except String (CleanupStatistics × List ImageTag × List String) :=
  let s := resolveSettings per days_old keep_minimum image_name
  let cutoff := imageCutoff per days_old keep_minimum now image_name
  let tags := tagsOf image_name
  if tags.isEmpty then .ok (st, [], [])
  else
    let tags_to_check := (sortTagsDesc tags).drop s.2
    processTags deleteOk dry_run cutoff st tags_to_check

/-- The image loop threaded over a list of image names. -/
def cleanImages (tagsOf : String → List ImageTag) (deleteOk : String → Bool)
    (now : Int) (days_old keep_minimum : Nat) (dry_run : Bool)
    (per : String → Option PerImageSettings) :
    CleanupStatistics → List String →
    Except String (CleanupStatistics × List ImageTag × List String)
  | st, [] => .ok (st, [], [])
  | st, n :: ns =>
    match processImage tagsOf deleteOk now days_old keep_minimum dry_run per st n with
    | .error e => .error e
    | .ok (st1, ex1, h1) =>
      match cleanImages tagsOf deleteOk now days_old keep_minimum dry_run per st1 ns with
      | .error e => .error e
      | .ok (st2, ex2, h2) => .ok (st2, ex1 ++ ex2, h1 ++ h2)

/-- The image selection of `clean_old_images`:
`if include_images: images = [i for i in images if i in include_images]`.
Python truthiness: `None` and the empty list leave the catalog
unfiltered. -/
def selectImages (catalog : List String)
    (include_images : Option (List String)) : List String :=
  match include_images with
  | none => catalog
  | some l => if l.isEmpty then catalog else catalog.filter (fun i => l.contains i)

/-- `JFrogCleaner.clean_old_images`: statistics start at zero, images come
from the catalog filtered by `include_images`, and the image loop runs. -/
def clean_old_images (catalog : List String) (tagsOf : String → List ImageTag)
    (deleteOk : String → Bool) (now : Int)
    (days_old : Nat) (dry_run : Bool) (keep_minimum : Nat)
    (include_images : Option (List String))
    (per : String → Option PerImageSettings) :
    Except String (CleanupStatistics × List ImageTag × List String) :=
  cleanImages tagsOf deleteOk now days_old keep_minimum dry_run per statsZero
    (selectImages catalog include_images)

/-- One `[[image_config]]` table of `config.toml` as `main` reads it:
the image name (the empty string models a falsy/absent `image` key, which
`main` skips) and the two optional numeric fields. -/
structure TomlImageConfig where
  image : String
  days_old : Option Nat
  keep_minimum : Option Nat
deriving DecidableEq

/-- The `image_settings` construction loop of `main`:
`image_settings[img_name] = PerImageSettings(days_old=img_config.get("days_old",
default_days_old), keep_minimum=img_config.get("keep_minimum",
default_keep_minimum))`, entries with a falsy name skipped, a later entry
for the same name overwriting an earlier one. -/
def buildImageSettings (cfgs : List TomlImageConfig)
    (default_days_old default_keep_minimum : Nat) (name : String) :
    Option PerImageSettings :=
  ((cfgs.filter (fun c => c.image != "" && c.image == name)).getLast?).map
    (fun c => ⟨c.days_old.getD default_days_old,
               c.keep_minimum.getD default_keep_minimum⟩)

instance {e a : Type} [DecidableEq e] [DecidableEq a] : DecidableEq (Except e a) := fun x y =>
  match x, y with
  | .ok u, .ok v =>
    if h : u = v then .isTrue (by rw [h]) else .isFalse (fun hc => h (Except.ok.inj hc))
  | .error u, .error v =>
    if h : u = v then .isTrue (by rw [h]) else .isFalse (fun hc => h (Except.error.inj hc))
  | .ok _, .error _ => .isFalse (fun hc => Except.noConfusion hc)
  | .error _, .ok _ => .isFalse (fun hc => Except.noConfusion hc)

/-- Whether the loop body would classify a tag as a deletion candidate:
its parsed timestamp is strictly before the cutoff. -/
def isOld (cutoff : Int) (t : ImageTag) : Bool :=
  match tagDate t with
  | some d => decide (d < cutoff)
  | none => false

/-- Whether the executor call for a tag reports success: always in
dry-run, `deleteOk` of its path in live mode. -/
def delSucceeds (deleteOk : String → Bool) (dry_run : Bool) (t : ImageTag) : Bool :=
  dry_run || deleteOk t.path

theorem isOld_eq_of_some (cutoff : Int) (t : ImageTag) (d : Int)
    (hd : tagDate t = some d) : isOld cutoff t = decide (d < cutoff) := by
  simp [isOld, hd]

theorem processTag_eq_of_some (deleteOk : String → Bool) (dry_run : Bool)
    (cutoff : Int) (st : CleanupStatistics) (t : ImageTag) (d : Int)
    (hd : tagDate t = some d) :
    processTag deleteOk dry_run cutoff st t =
      (if decide (d < cutoff) && delSucceeds deleteOk dry_run t then
        .ok (⟨st.checked + 1, st.deleted + 1, st.kept, st.errors⟩, [t],
             if dry_run then [] else [t.path])
      else if decide (d < cutoff) then
        .ok (⟨st.checked + 1, st.deleted, st.kept, st.errors + 1⟩, [t],
             if dry_run then [] else [t.path])
      else
        .ok (⟨st.checked + 1, st.deleted, st.kept + 1, st.errors⟩, [], [])) := by
  unfold processTag delete_image_tag delSucceeds
  rw [hd]
  by_cases hc : d < cutoff <;> cases dry_run <;> by_cases hD : deleteOk t.path = true <;>
    simp [hc, hD]

/-- Closed form of the candidate loop when every candidate's timestamp
parses. -/
theorem processTags_eq (deleteOk : String → Bool) (dry_run : Bool) (cutoff : Int)
    (l : List ImageTag) : ∀ st : CleanupStatistics, (∀ t ∈ l, (tagDate t).isSome) →
    processTags deleteOk dry_run cutoff st l =
      .ok (⟨st.checked + l.length,
            st.deleted +
              (l.filter (fun t => isOld cutoff t && delSucceeds deleteOk dry_run t)).length,
            st.kept + (l.filter (fun t => !isOld cutoff t)).length,
            st.errors +
              (l.filter (fun t => isOld cutoff t && !delSucceeds deleteOk dry_run t)).length⟩,
           l.filter (fun t => isOld cutoff t),
           if dry_run then []
           else (l.filter (fun t => isOld cutoff t)).map (fun t => t.path)) := by
  induction l with
  | nil => intro st _; cases st; simp [processTags]
  | cons t ts ih =>
    intro st h
    have ht : (tagDate t).isSome := h t (List.mem_cons_self t ts)
    obtain ⟨d, hd⟩ := Option.isSome_iff_exists.mp ht
    have hts : ∀ x ∈ ts, (tagDate x).isSome := fun x hx => h x (List.mem_cons_of_mem t hx)
    have hold := isOld_eq_of_some cutoff t d hd
    by_cases hc : d < cutoff
    · by_cases hs : delSucceeds deleteOk dry_run t = true
      · simp only [processTags, processTag_eq_of_some deleteOk dry_run cutoff st t d hd,
          decide_eq_true hc, hs, ih _ hts, List.filter_cons, hold, List.length_cons]
        cases dry_run <;> simp_all <;> omega
      · simp only [Bool.not_eq_true] at hs
        simp only [processTags, processTag_eq_of_some deleteOk dry_run cutoff st t d hd,
          decide_eq_true hc, hs, ih _ hts, List.filter_cons, hold, List.length_cons]
        cases dry_run <;> simp_all <;> omega
    · simp only [processTags, processTag_eq_of_some deleteOk dry_run cutoff st t d hd,
        decide_eq_false hc, ih _ hts, List.filter_cons, hold, List.length_cons]
      cases dry_run <;> simp_all <;> omega

theorem sortTagsDesc_perm (l : List ImageTag) : (sortTagsDesc l).Perm l :=
  List.perm_insertionSort tagGE l

/-- The candidate list of an image: the sorted tags beyond the resolved
keep-minimum floor (`tags_to_check`). -/
def imageCand (tagsOf : String → List ImageTag)
    (per : String → Option PerImageSettings)
    (days_old keep_minimum : Nat) (image_name : String) : List ImageTag :=
  (sortTagsDesc (tagsOf image_name)).drop
    (resolveSettings per days_old keep_minimum image_name).2

/-- The deletion candidates of an image: candidates whose parsed timestamp
is before the image's cutoff, in processing order. -/
def imageOldList (tagsOf : String → List ImageTag)
    (per : String → Option PerImageSettings)
    (days_old keep_minimum : Nat) (now : Int) (image_name : String) : List ImageTag :=
  (imageCand tagsOf per days_old keep_minimum image_name).filter
    (fun t => isOld (imageCutoff per days_old keep_minimum now image_name) t)

/-- Closed form of one image's processing when every one of its tags'
timestamps parses. -/
theorem processImage_eq (tagsOf : String → List ImageTag) (deleteOk : String → Bool)
    (now : Int) (days_old keep_minimum : Nat) (dry_run : Bool)
    (per : String → Option PerImageSettings) (st : CleanupStatistics)
    (image_name : String)
    (h : ∀ t ∈ tagsOf image_name, (tagDate t).isSome) :
    processImage tagsOf deleteOk now days_old keep_minimum dry_run per st image_name =
      .ok (⟨st.checked + (imageCand tagsOf per days_old keep_minimum image_name).length,
            st.deleted + ((imageCand tagsOf per days_old keep_minimum image_name).filter
              (fun t => isOld (imageCutoff per days_old keep_minimum now image_name) t &&
                        delSucceeds deleteOk dry_run t)).length,
            st.kept + ((imageCand tagsOf per days_old keep_minimum image_name).filter
              (fun t => !isOld (imageCutoff per days_old keep_minimum now image_name) t)).length,
            st.errors + ((imageCand tagsOf per days_old keep_minimum image_name).filter
              (fun t => isOld (imageCutoff per days_old keep_minimum now image_name) t &&
                        !delSucceeds deleteOk dry_run t)).length⟩,
           imageOldList tagsOf per days_old keep_minimum now image_name,
           if dry_run then []
           else (imageOldList tagsOf per days_old keep_minimum now image_name).map
             (fun t => t.path)) := by
  have hcand : ∀ t ∈ imageCand tagsOf per days_old keep_minimum image_name,
      (tagDate t).isSome := by
    intro t htm
    exact h t ((sortTagsDesc_perm (tagsOf image_name)).subset
      (List.drop_subset _ _ htm))
  by_cases he : (tagsOf image_name).isEmpty
  · have he2 : tagsOf image_name = [] := List.isEmpty_iff.mp he
    cases st
    simp [processImage, he, imageCand, imageOldList, he2, sortTagsDesc,
      List.insertionSort]
  · simp only [processImage, he, Bool.false_eq_true, if_false]
    rw [show (sortTagsDesc (tagsOf image_name)).drop
          (resolveSettings per days_old keep_minimum image_name).2 =
        imageCand tagsOf per days_old keep_minimum image_name from rfl]
    rw [processTags_eq deleteOk dry_run
      (imageCutoff per days_old keep_minimum now image_name)
      (imageCand tagsOf per days_old keep_minimum image_name) st hcand]
    rfl

/-- Closed form of the image loop when every processed image's tags all
parse. -/
theorem cleanImages_eq (tagsOf : String → List ImageTag) (deleteOk : String → Bool)
    (now : Int) (days_old keep_minimum : Nat) (dry_run : Bool)
    (per : String → Option PerImageSettings) (names : List String) :
    ∀ st : CleanupStatistics, (∀ n ∈ names, ∀ t ∈ tagsOf n, (tagDate t).isSome) →
    cleanImages tagsOf deleteOk now days_old keep_minimum dry_run per st names =
      .ok (⟨st.checked + (names.map (fun n =>
              (imageCand tagsOf per days_old keep_minimum n).length)).sum,
            st.deleted + (names.map (fun n =>
              ((imageCand tagsOf per days_old keep_minimum n).filter
                (fun t => isOld (imageCutoff per days_old keep_minimum now n) t &&
                          delSucceeds deleteOk dry_run t)).length)).sum,
            st.kept + (names.map (fun n =>
              ((imageCand tagsOf per days_old keep_minimum n).filter
                (fun t => !isOld (imageCutoff per days_old keep_minimum now n) t)).length)).sum,
            st.errors + (names.map (fun n =>
              ((imageCand tagsOf per days_old keep_minimum n).filter
                (fun t => isOld (imageCutoff per days_old keep_minimum now n) t &&
                          !delSucceeds deleteOk dry_run t)).length)).sum⟩,
           (names.map (fun n =>
             imageOldList tagsOf per days_old keep_minimum now n)).flatten,
           if dry_run then []
           else ((names.map (fun n =>
             imageOldList tagsOf per days_old keep_minimum now n)).flatten).map
               (fun t => t.path)) := by
  induction names with
  | nil => intro st _; cases st; simp [cleanImages]
  | cons n ns ih =>
    intro st h
    have hn : ∀ t ∈ tagsOf n, (tagDate t).isSome := h n (List.mem_cons_self n ns)
    have hns : ∀ m ∈ ns, ∀ t ∈ tagsOf m, (tagDate t).isSome :=
      fun m hm => h m (List.mem_cons_of_mem n hm)
    simp only [cleanImages,
      processImage_eq tagsOf deleteOk now days_old keep_minimum dry_run per st n hn,
      ih _ hns, List.map_cons, List.sum_cons, List.flatten_cons]
    cases dry_run <;> simp <;> omega

/-- Componentwise order on statistics. -/
def statsLE (a b : CleanupStatistics) : Prop :=
  a.checked ≤ b.checked ∧ a.deleted ≤ b.deleted ∧ a.kept ≤ b.kept ∧ a.errors ≤ b.errors

/-- The balance invariant: every checked tag went to exactly one of the
three other counters. -/
def statsBal (s : CleanupStatistics) : Prop :=
  s.checked = s.deleted + s.errors + s.kept

theorem processTag_step (deleteOk : String → Bool) (dry_run : Bool) (cutoff : Int)
    (st : CleanupStatistics) (t : ImageTag)
    (out : CleanupStatistics × List ImageTag × List String)
    (h : processTag deleteOk dry_run cutoff st t = .ok out) :
    out.1.checked = st.checked + 1 ∧
    ((out.1.deleted = st.deleted + 1 ∧ out.1.kept = st.kept ∧ out.1.errors = st.errors) ∨
     (out.1.deleted = st.deleted ∧ out.1.kept = st.kept ∧ out.1.errors = st.errors + 1) ∨
     (out.1.deleted = st.deleted ∧ out.1.kept = st.kept + 1 ∧ out.1.errors = st.errors)) := by
  cases hd : tagDate t with
  | none => simp [processTag, hd] at h
  | some d =>
    rw [processTag_eq_of_some deleteOk dry_run cutoff st t d hd] at h
    split_ifs at h <;>
      (injection h with h3; subst h3; dsimp only; omega)

theorem processTags_pres (deleteOk : String → Bool) (dry_run : Bool) (cutoff : Int)
    (l : List ImageTag) :
    ∀ st out, processTags deleteOk dry_run cutoff st l = .ok out →
    statsLE st out.1 ∧ (statsBal st → statsBal out.1) := by
  induction l with
  | nil =>
    intro st out h
    simp only [processTags] at h
    injection h with h2
    subst h2
    exact ⟨⟨le_refl _, le_refl _, le_refl _, le_refl _⟩, fun hb => hb⟩
  | cons t ts ih =>
    intro st out h
    simp only [processTags] at h
    cases hp : processTag deleteOk dry_run cutoff st t with
    | error e => rw [hp] at h; exact absurd h (by simp)
    | ok o =>
      obtain ⟨st1, ex1, h1⟩ := o
      simp only [hp] at h
      cases hq : processTags deleteOk dry_run cutoff st1 ts with
      | error e => rw [hq] at h; exact absurd h (by simp)
      | ok o2 =>
        obtain ⟨st2, ex2, h2⟩ := o2
        simp only [hq] at h
        injection h with h3
        subst h3
        obtain ⟨sc, sd⟩ := processTag_step deleteOk dry_run cutoff st t (st1, ex1, h1) hp
        obtain ⟨s2le, s2bal⟩ := ih st1 (st2, ex2, h2) hq
        simp only [statsLE, statsBal] at s2le s2bal sc sd ⊢
        constructor
        · omega
        · intro hb
          exact s2bal (by omega)

theorem processImage_pres (tagsOf : String → List ImageTag) (deleteOk : String → Bool)
    (now : Int) (days_old keep_minimum : Nat) (dry_run : Bool)
    (per : String → Option PerImageSettings) (st : CleanupStatistics)
    (image_name : String) (out : CleanupStatistics × List ImageTag × List String)
    (h : processImage tagsOf deleteOk now days_old keep_minimum dry_run per st image_name
      = .ok out) :
    statsLE st out.1 ∧ (statsBal st → statsBal out.1) := by
  simp only [processImage] at h
  by_cases he : (tagsOf image_name).isEmpty
  · rw [if_pos he] at h
    injection h with h2
    subst h2
    exact ⟨⟨le_refl _, le_refl _, le_refl _, le_refl _⟩, fun hb => hb⟩
  · rw [if_neg he] at h
    exact processTags_pres _ _ _ _ st out h

theorem cleanImages_pres (tagsOf : String → List ImageTag) (deleteOk : String → Bool)
    (now : Int) (days_old keep_minimum : Nat) (dry_run : Bool)
    (per : String → Option PerImageSettings) (names : List String) :
    ∀ st out,
    cleanImages tagsOf deleteOk now days_old keep_minimum dry_run per st names = .ok out →
    statsLE st out.1 ∧ (statsBal st → statsBal out.1) := by
  induction names with
  | nil =>
    intro st out h
    simp only [cleanImages] at h
    injection h with h2
    subst h2
    exact ⟨⟨le_refl _, le_refl _, le_refl _, le_refl _⟩, fun hb => hb⟩
  | cons n ns ih =>
    intro st out h
    simp only [cleanImages] at h
    cases hp : processImage tagsOf deleteOk now days_old keep_minimum dry_run per st n with
    | error e => rw [hp] at h; exact absurd h (by simp)
    | ok o =>
      obtain ⟨st1, ex1, h1⟩ := o
      simp only [hp] at h
      cases hq : cleanImages tagsOf deleteOk now days_old keep_minimum dry_run per st1 ns with
      | error e => rw [hq] at h; exact absurd h (by simp)
      | ok o2 =>
        obtain ⟨st2, ex2, h2⟩ := o2
        simp only [hq] at h
        injection h with h3
        subst h3
        obtain ⟨s1le, s1bal⟩ :=
          processImage_pres tagsOf deleteOk now days_old keep_minimum dry_run per st n
            (st1, ex1, h1) hp
        obtain ⟨s2le, s2bal⟩ := ih st1 (st2, ex2, h2) hq
        simp only [statsLE, statsBal] at s1le s1bal s2le s2bal ⊢
        constructor
        · omega
        · intro hb
          exact s2bal (s1bal hb)

/-- An unparsable candidate timestamp aborts the whole loop: the
uncaught exception propagates. -/
theorem processTags_error_of_bad (deleteOk : String → Bool) (dry_run : Bool)
    (cutoff : Int) (l : List ImageTag) :
    ∀ st, (∃ t ∈ l, tagDate t = none) →
    ∃ e, processTags deleteOk dry_run cutoff st l = .error e := by
  induction l with
  | nil =>
    intro st h
    obtain ⟨t, ht, _⟩ := h
    simp at ht
  | cons t ts ih =>
    intro st h
    cases hp : processTag deleteOk dry_run cutoff st t with
    | error e => exact ⟨e, by simp only [processTags, hp]⟩
    | ok o =>
      obtain ⟨st1, ex1, h1⟩ := o
      have htd : tagDate t ≠ none := by
        intro hn
        simp [processTag, hn] at hp
      obtain ⟨t0, ht0, hbad⟩ := h
      have ht0' : t0 ∈ ts := by
        rcases List.mem_cons.mp ht0 with rfl | hmem
        · exact absurd hbad htd
        · exact hmem
      obtain ⟨e, he⟩ := ih st1 ⟨t0, ht0', hbad⟩
      exact ⟨e, by simp only [processTags, hp, he]⟩

theorem charListLE_refl (x : List Char) : charListLE x x = true := by
  induction x with
  | nil => rfl
  | cons a as ih => simp [charListLE, lt_irrefl, ih]

/-- Stability of the ordered insertion: the subsequence of entries whose
`modified` string is any fixed key is unchanged, because an inserted
element only passes entries with a strictly greater key. -/
theorem filter_orderedInsert_key (x : ImageTag) (l : List ImageTag) (k : String) :
    (List.orderedInsert tagGE x l).filter (fun t => t.modified == k) =
      (x :: l).filter (fun t => t.modified == k) := by
  induction l with
  | nil => rfl
  | cons y ys ih =>
    by_cases hr : tagGE x y
    · simp [List.orderedInsert, hr]
    · have hne : y.modified ≠ x.modified := by
        intro he
        exact hr (by simp [tagGE, strLE, he, charListLE_refl])
      simp only [List.orderedInsert, if_neg hr, List.filter_cons, ih]
      by_cases px : (x.modified == k) = true
      · have pxk : x.modified = k := by simpa using px
        have pyk : (y.modified == k) = false := by
          simp only [beq_eq_false_iff_ne, ne_eq]
          rw [pxk] at hne
          exact hne
        simp [px, pyk]
      · simp only [Bool.not_eq_true] at px
        simp [px]

/-- Python's stable sort: the subsequence of tags with any fixed
`modified` key appears in the sorted output in its input order. -/
theorem sortTagsDesc_stable (l : List ImageTag) (k : String) :
    (sortTagsDesc l).filter (fun t => t.modified == k) =
      l.filter (fun t => t.modified == k) := by
  induction l with
  | nil => rfl
  | cons t ts ih =>
    simp only [sortTagsDesc, List.insertionSort] at ih ⊢
    rw [filter_orderedInsert_key, List.filter_cons, List.filter_cons, ih]

/-- The sorted output is descending on the `modified` keys. -/
theorem sortTagsDesc_sorted_keys (l : List ImageTag) :
    List.Sorted strGE ((sortTagsDesc l).map (fun t => t.modified)) := by
  have h := List.sorted_insertionSort tagGE l
  exact List.Pairwise.map _ (fun a b hab => hab) h

/-- Any two permutations of the same tags have identical key sequences
after the sort. -/
theorem sortTagsDesc_keys_eq_of_perm (l1 l2 : List ImageTag) (h : l1.Perm l2) :
    (sortTagsDesc l1).map (fun t => t.modified) =
      (sortTagsDesc l2).map (fun t => t.modified) := by
  exact List.eq_of_perm_of_sorted
    (((sortTagsDesc_perm l1).map _).trans
      ((h.map _).trans ((sortTagsDesc_perm l2).map _).symm))
    (sortTagsDesc_sorted_keys l1) (sortTagsDesc_sorted_keys l2)

/-! Concrete inputs used by the witnesses and counterexamples below.
`nowEx` is 2025-07-01T00:00:00Z; the four tags are 1, 10, 40 and 50 days
older, matching the worked example of the specification. -/

def t1ex : ImageTag := ⟨"v4", "app/v4", "2025-06-30T00:00:00Z"⟩

def t2ex : ImageTag := ⟨"v3", "app/v3", "2025-06-21T00:00:00Z"⟩

def t3ex : ImageTag := ⟨"v2", "app/v2", "2025-05-22T00:00:00Z"⟩

def t4ex : ImageTag := ⟨"v1", "app/v1", "2025-05-12T00:00:00Z"⟩

def nowEx : Int := epochSeconds 2025 7 1 0 0 0

def tagsOfEx : String → List ImageTag := fun _ => [t1ex, t2ex, t3ex, t4ex]

def perNone : String → Option PerImageSettings := fun _ => none

def allOk : String → Bool := fun _ => true

def gtag : ImageTag := ⟨"good", "app/good", "2025-01-01T00:00:00Z"⟩

def btag : ImageTag := ⟨"bad", "app/bad", "broken"⟩

def tagsOfBad : String → List ImageTag := fun _ => [gtag, btag]

def atag : ImageTag := ⟨"a", "app/a", "2025-01-01T00:00:00Z"⟩

def btag9 : ImageTag := ⟨"b", "app/b", "2025-01-01T00:00:00Z"⟩

def tC10 : ImageTag := ⟨"old", "app/old", "2025-05-12T00:00:00Z"⟩

def tagsOfC10 : String → List ImageTag := fun _ => [tC10]

/-- Claim C1: for every image's tag list sorted newest-first and every
policy, the first keep-minimum tags (the floor) are never passed to the
deletion executor under any days-old value (the executor-call list is a
sublist of the candidates beyond the floor, so no floor position is ever
handed over), floor tags are never counted as checked (checked grows by
exactly the number of candidates), and the number of checked tags plus the
number of floor-exempt tags equals the total number of tags. -/
theorem c1_floor_exempt (tagsOf : String → List ImageTag) (deleteOk : String → Bool)
    (now : Int) (days_old keep_minimum : Nat) (dry_run : Bool)
    (per : String → Option PerImageSettings) (st : CleanupStatistics)
    (image_name : String)
    (h : ∀ t ∈ tagsOf image_name, (tagDate t).isSome) :
    ∃ st2 ex http,
      processImage tagsOf deleteOk now days_old keep_minimum dry_run per st image_name =
        .ok (st2, ex, http) ∧
      ex.Sublist ((sortTagsDesc (tagsOf image_name)).drop
        (resolveSettings per days_old keep_minimum image_name).2) ∧
      st2.checked = st.checked + ((sortTagsDesc (tagsOf image_name)).drop
        (resolveSettings per days_old keep_minimum image_name).2).length ∧
      st2.checked - st.checked + ((sortTagsDesc (tagsOf image_name)).take
        (resolveSettings per days_old keep_minimum image_name).2).length =
        (tagsOf image_name).length := by
  refine ⟨_, _, _,
    processImage_eq tagsOf deleteOk now days_old keep_minimum dry_run per st image_name h,
    ?_, ?_, ?_⟩
  · simp only [imageOldList, imageCand]
    exact List.filter_sublist _
  · rfl
  · have hlen : (sortTagsDesc (tagsOf image_name)).length = (tagsOf image_name).length :=
      (sortTagsDesc_perm (tagsOf image_name)).length_eq
    simp only [imageCand, List.length_take, List.length_drop]
    omega

theorem c1_witness :
    (∀ t ∈ tagsOfEx ("app"), (tagDate t).isSome) ∧
    (∃ st2 ex http,
      processImage tagsOfEx allOk nowEx 30 1 true perNone statsZero ("app") =
        .ok (st2, ex, http) ∧
      ex.Sublist ((sortTagsDesc (tagsOfEx ("app"))).drop
        (resolveSettings perNone 30 1 ("app")).2) ∧
      st2.checked = statsZero.checked + ((sortTagsDesc (tagsOfEx ("app"))).drop
        (resolveSettings perNone 30 1 ("app")).2).length ∧
      st2.checked - statsZero.checked + ((sortTagsDesc (tagsOfEx ("app"))).take
        (resolveSettings perNone 30 1 ("app")).2).length =
        (tagsOfEx ("app")).length) :=
  ⟨by decide,
   c1_floor_exempt tagsOfEx allOk nowEx 30 1 true perNone statsZero ("app") (by decide)⟩

/-- Claim C2: every candidate beyond the floor, in the newest-first sorted
order, increments checked; it is passed to the deletion executor exactly
when its parsed timestamp is strictly before the cutoff (the executor-call
list is precisely the filter of the candidates by that test, in order);
otherwise kept is incremented.  On the worked example of four tags aged
1, 10, 40 and 50 days with keep-minimum 1 and days-old 30 in dry-run, the
statistics are checked 3, deleted 2, kept 1, errors 0, the floor is the
newest tag, and the only deletion candidates are the 40- and 50-day-old
tags in that order. -/
theorem c2_candidate_rule :
    (∀ (deleteOk : String → Bool) (dry_run : Bool) (cutoff : Int)
       (st : CleanupStatistics) (l : List ImageTag),
       (∀ t ∈ l, (tagDate t).isSome) →
       ∃ st2 http,
         processTags deleteOk dry_run cutoff st l =
           .ok (st2, l.filter (fun t => isOld cutoff t), http) ∧
         st2.checked = st.checked + l.length ∧
         st2.kept = st.kept + (l.filter (fun t => !isOld cutoff t)).length) ∧
    processImage tagsOfEx allOk nowEx 30 1 true perNone statsZero ("app") =
      .ok (⟨3, 2, 1, 0⟩, [t3ex, t4ex], []) ∧
    (sortTagsDesc (tagsOfEx ("app"))).take 1 = [t1ex] := by
  refine ⟨?_, by decide, by decide⟩
  intro deleteOk dry_run cutoff st l h
  exact ⟨_, _, processTags_eq deleteOk dry_run cutoff l st h, rfl, rfl⟩

theorem c2_witness :
    (∀ t ∈ tagsOfEx ("app"), (tagDate t).isSome) ∧
    (∃ st2 http,
      processTags allOk true (nowEx - 30 * 86400) statsZero (tagsOfEx ("app")) =
        .ok (st2, (tagsOfEx ("app")).filter (fun t => isOld (nowEx - 30 * 86400) t), http) ∧
      st2.checked = statsZero.checked + (tagsOfEx ("app")).length ∧
      st2.kept = statsZero.kept +
        ((tagsOfEx ("app")).filter (fun t => !isOld (nowEx - 30 * 86400) t)).length) :=
  ⟨by decide,
   c2_candidate_rule.1 allOk true (nowEx - 30 * 86400) statsZero (tagsOfEx ("app"))
     (by decide)⟩

/-- Claim C3: statistics start all-zero; every successfully processed tag
increments checked by one and exactly one of deleted, errors, kept; for
every run that returns, checked equals deleted plus errors plus kept; and
no counter is ever decremented across the image loop (componentwise the
final statistics dominate the initial ones). -/
theorem c3_statistics_balance :
    statsZero = ⟨0, 0, 0, 0⟩ ∧
    (∀ (deleteOk : String → Bool) (dry_run : Bool) (cutoff : Int)
       (st : CleanupStatistics) (t : ImageTag)
       (out : CleanupStatistics × List ImageTag × List String),
       processTag deleteOk dry_run cutoff st t = .ok out →
       out.1.checked = st.checked + 1 ∧
       ((out.1.deleted = st.deleted + 1 ∧ out.1.kept = st.kept ∧ out.1.errors = st.errors) ∨
        (out.1.deleted = st.deleted ∧ out.1.kept = st.kept ∧ out.1.errors = st.errors + 1) ∨
        (out.1.deleted = st.deleted ∧ out.1.kept = st.kept + 1 ∧ out.1.errors = st.errors))) ∧
    (∀ (catalog : List String) (tagsOf : String → List ImageTag)
       (deleteOk : String → Bool) (now : Int) (days_old : Nat) (dry_run : Bool)
       (keep_minimum : Nat) (include_images : Option (List String))
       (per : String → Option PerImageSettings)
       (out : CleanupStatistics × List ImageTag × List String),
       clean_old_images catalog tagsOf deleteOk now days_old dry_run keep_minimum
         include_images per = .ok out →
       out.1.checked = out.1.deleted + out.1.errors + out.1.kept) ∧
    (∀ (tagsOf : String → List ImageTag) (deleteOk : String → Bool) (now : Int)
       (days_old keep_minimum : Nat) (dry_run : Bool)
       (per : String → Option PerImageSettings) (names : List String)
       (st : CleanupStatistics) (out : CleanupStatistics × List ImageTag × List String),
       cleanImages tagsOf deleteOk now days_old keep_minimum dry_run per st names = .ok out →
       statsLE st out.1) := by
  refine ⟨rfl, processTag_step, ?_, ?_⟩
  · intro catalog tagsOf deleteOk now days_old dry_run keep_minimum include_images per out h
    have hb := (cleanImages_pres tagsOf deleteOk now days_old keep_minimum dry_run per
      (selectImages catalog include_images) statsZero out h).2
    exact hb rfl
  · intro tagsOf deleteOk now days_old keep_minimum dry_run per names st out h
    exact (cleanImages_pres tagsOf deleteOk now days_old keep_minimum dry_run per
      names st out h).1

theorem c3_witness :
    clean_old_images ["app"] tagsOfEx allOk nowEx 30 true 1 none perNone =
      .ok (⟨3, 2, 1, 0⟩, [t3ex, t4ex], []) ∧
    ((⟨3, 2, 1, 0⟩ : CleanupStatistics), [t3ex, t4ex],
      ([] : List String)).1.checked =
      ((⟨3, 2, 1, 0⟩ : CleanupStatistics), [t3ex, t4ex], ([] : List String)).1.deleted +
      ((⟨3, 2, 1, 0⟩ : CleanupStatistics), [t3ex, t4ex], ([] : List String)).1.errors +
      ((⟨3, 2, 1, 0⟩ : CleanupStatistics), [t3ex, t4ex], ([] : List String)).1.kept :=
  ⟨by decide,
   c3_statistics_balance.2.2.1 ["app"] tagsOfEx allOk nowEx 30 true 1 none perNone
     (⟨3, 2, 1, 0⟩, [t3ex, t4ex], []) (by decide)⟩

/-- Claim C4 as amended: the code has no handler for a missing or
unparsable `lastModified`.  A tag whose timestamp does not parse makes the
per-tag evaluation raise (`Except.error` carrying the offending string),
and the exception aborts the whole candidate loop — no errors counter is
incremented and no statistics are returned, instead of failing only that
tag and continuing. -/
theorem c4_amended :
    (∀ (deleteOk : String → Bool) (dry_run : Bool) (cutoff : Int)
       (st : CleanupStatistics) (t : ImageTag),
       tagDate t = none →
       processTag deleteOk dry_run cutoff st t = .error t.modified) ∧
    (∀ (deleteOk : String → Bool) (dry_run : Bool) (cutoff : Int)
       (l : List ImageTag) (st : CleanupStatistics),
       (∃ t ∈ l, tagDate t = none) →
       ∃ e, processTags deleteOk dry_run cutoff st l = .error e) := by
  constructor
  · intro deleteOk dry_run cutoff st t hn
    simp [processTag, hn]
  · intro deleteOk dry_run cutoff l st h
    exact processTags_error_of_bad deleteOk dry_run cutoff l st h

/-- Claim C4 counterexample: with one unparsable tag and keep-minimum 0,
the whole image evaluation returns an error (the run aborts, nothing is
recorded in the statistics), and the unparsable string sorts first rather
than sinking to the end (raw-string descending sort: a lowercase word
compares greater than a digit-leading timestamp). -/
theorem c4_counter :
    processImage tagsOfBad allOk nowEx 30 0 true perNone statsZero ("app") =
      .error ("broken") ∧
    sortTagsDesc [gtag, btag] = [btag, gtag] ∧
    btag.modified = ("broken") := by
  refine ⟨by decide, by decide, by decide⟩

theorem c4_witness :
    (∃ t ∈ [gtag, btag], tagDate t = none) ∧
    (∃ e, processTags allOk true (nowEx - 30 * 86400) statsZero [gtag, btag] = .error e) :=
  ⟨by decide,
   c4_amended.2 allOk true (nowEx - 30 * 86400) [gtag, btag] statsZero (by decide)⟩

/-- Claim C5 as amended: at the `clean_old_images` boundary resolution is
all-or-nothing (no entry: both defaults unchanged; an entry: both fields
from it), but `main` builds each per-image entry with per-field fallback:
a `config.toml` override may supply only one of `days_old` or
`keep_minimum`, and the omitted field is filled individually from the
repository default.  End to end, an override supplying only one field
resolves to that field plus the default for the other. -/
theorem c5_amended :
    (∀ (per : String → Option PerImageSettings) (dD dK : Nat) (n : String),
       per n = none → resolveSettings per dD dK n = (dD, dK)) ∧
    (∀ (per : String → Option PerImageSettings) (dD dK : Nat) (n : String)
       (s : PerImageSettings), per n = some s →
       resolveSettings per dD dK n = (s.days_old, s.keep_minimum)) ∧
    (∀ (n : String) (d dD dK : Nat), n ≠ "" →
       resolveSettings (buildImageSettings [⟨n, some d, none⟩] dD dK) dD dK n = (d, dK)) ∧
    (∀ (n : String) (k dD dK : Nat), n ≠ "" →
       resolveSettings (buildImageSettings [⟨n, none, some k⟩] dD dK) dD dK n = (dD, k)) ∧
    (∀ (cfgs : List TomlImageConfig) (dD dK : Nat) (n : String),
       (∀ c ∈ cfgs, c.image ≠ n) → buildImageSettings cfgs dD dK n = none) := by
  refine ⟨?_, ?_, ?_, ?_, ?_⟩
  · intro per dD dK n h
    simp [resolveSettings, h]
  · intro per dD dK n s h
    simp [resolveSettings, h]
  · intro n d dD dK hn
    simp [resolveSettings, buildImageSettings, hn]
  · intro n k dD dK hn
    simp [resolveSettings, buildImageSettings, hn]
  · intro cfgs dD dK n h
    have : cfgs.filter (fun c => c.image != "" && c.image == n) = [] := by
      rw [List.filter_eq_nil_iff]
      intro c hc
      simp only [Bool.and_eq_true, bne_iff_ne, ne_eq, beq_iff_eq, not_and]
      intro _
      exact h c hc
    simp [buildImageSettings, this]

/-- Claim C5 counterexample: an override entry for `app` supplying only
`days_old = 5` resolves with `keep_minimum` taken from the repository
default — the resolved value tracks the default (7 or 9), so the override
does not supply both fields and per-field fallback exists. -/
theorem c5_counter :
    buildImageSettings [⟨"app", some 5, none⟩] 30 7 ("app") = some ⟨5, 7⟩ ∧
    buildImageSettings [⟨"app", some 5, none⟩] 30 9 ("app") = some ⟨5, 9⟩ :=
  ⟨by decide, by decide⟩

theorem c5_witness :
    ("app" : String) ≠ "" ∧
    resolveSettings (buildImageSettings [⟨"app", some 5, none⟩] 30 7) 30 7 ("app") =
      (5, 7) :=
  ⟨by decide, c5_amended.2.2.1 ("app") 5 30 7 (by decide)⟩

theorem processTag_dry (deleteOk : String → Bool) (cutoff : Int)
    (st : CleanupStatistics) (t : ImageTag)
    (out : CleanupStatistics × List ImageTag × List String)
    (h : processTag deleteOk true cutoff st t = .ok out) :
    out.1.errors = st.errors ∧ out.2.2 = [] := by
  cases hd : tagDate t with
  | none => simp [processTag, hd] at h
  | some d =>
    rw [processTag_eq_of_some deleteOk true cutoff st t d hd] at h
    have hds : delSucceeds deleteOk true t = true := by simp [delSucceeds]
    rw [hds] at h
    split_ifs at h <;>
      first
        | (injection h with h3; subst h3; exact ⟨rfl, rfl⟩)
        | simp_all

theorem processTags_dry (deleteOk : String → Bool) (cutoff : Int) (l : List ImageTag) :
    ∀ st out, processTags deleteOk true cutoff st l = .ok out →
    out.1.errors = st.errors ∧ out.2.2 = [] := by
  induction l with
  | nil =>
    intro st out h
    simp only [processTags] at h
    injection h with h2
    subst h2
    exact ⟨rfl, rfl⟩
  | cons t ts ih =>
    intro st out h
    simp only [processTags] at h
    cases hp : processTag deleteOk true cutoff st t with
    | error e => rw [hp] at h; exact absurd h (by simp)
    | ok o =>
      obtain ⟨st1, ex1, h1⟩ := o
      simp only [hp] at h
      cases hq : processTags deleteOk true cutoff st1 ts with
      | error e => rw [hq] at h; exact absurd h (by simp)
      | ok o2 =>
        obtain ⟨st2, ex2, h2⟩ := o2
        simp only [hq] at h
        injection h with h3
        subst h3
        obtain ⟨e1, l1⟩ := processTag_dry deleteOk cutoff st t (st1, ex1, h1) hp
        obtain ⟨e2, l2⟩ := ih st1 (st2, ex2, h2) hq
        dsimp only at e1 l1 e2 l2 ⊢
        subst l1
        subst l2
        exact ⟨by omega, rfl⟩

theorem processImage_dry (tagsOf : String → List ImageTag) (deleteOk : String → Bool)
    (now : Int) (days_old keep_minimum : Nat)
    (per : String → Option PerImageSettings) (st : CleanupStatistics)
    (image_name : String) (out : CleanupStatistics × List ImageTag × List String)
    (h : processImage tagsOf deleteOk now days_old keep_minimum true per st image_name
      = .ok out) :
    out.1.errors = st.errors ∧ out.2.2 = [] := by
  simp only [processImage] at h
  by_cases he : (tagsOf image_name).isEmpty
  · rw [if_pos he] at h
    injection h with h2
    subst h2
    exact ⟨rfl, rfl⟩
  · rw [if_neg he] at h
    exact processTags_dry _ _ _ st out h

theorem cleanImages_dry (tagsOf : String → List ImageTag) (deleteOk : String → Bool)
    (now : Int) (days_old keep_minimum : Nat)
    (per : String → Option PerImageSettings) (names : List String) :
    ∀ st out,
    cleanImages tagsOf deleteOk now days_old keep_minimum true per st names = .ok out →
    out.1.errors = st.errors ∧ out.2.2 = [] := by
  induction names with
  | nil =>
    intro st out h
    simp only [cleanImages] at h
    injection h with h2
    subst h2
    exact ⟨rfl, rfl⟩
  | cons n ns ih =>
    intro st out h
    simp only [cleanImages] at h
    cases hp : processImage tagsOf deleteOk now days_old keep_minimum true per st n with
    | error e => rw [hp] at h; exact absurd h (by simp)
    | ok o =>
      obtain ⟨st1, ex1, h1⟩ := o
      simp only [hp] at h
      cases hq : cleanImages tagsOf deleteOk now days_old keep_minimum true per st1 ns with
      | error e => rw [hq] at h; exact absurd h (by simp)
      | ok o2 =>
        obtain ⟨st2, ex2, h2⟩ := o2
        simp only [hq] at h
        injection h with h3
        subst h3
        obtain ⟨e1, l1⟩ :=
          processImage_dry tagsOf deleteOk now days_old keep_minimum per st n
            (st1, ex1, h1) hp
        obtain ⟨e2, l2⟩ := ih st1 (st2, ex2, h2) hq
        dsimp only at e1 l1 e2 l2 ⊢
        subst l1
        subst l2
        exact ⟨by omega, rfl⟩

/-- Claim C6: the dry-run delete is a no-op that always succeeds (no HTTP
request, result `true`); hence a dry run that returns has an empty list of
issued DELETE requests and a zero errors counter; and on inputs where
every live delete would succeed, a dry run and a live run produce the same
statistics and the same executor-call list (the live run merely also
issues the requests). -/
theorem c6_dry_run_law :
    (∀ (deleteOk : String → Bool) (p : String),
       delete_image_tag deleteOk p true = (true, [])) ∧
    (∀ (catalog : List String) (tagsOf : String → List ImageTag)
       (deleteOk : String → Bool) (now : Int) (days_old keep_minimum : Nat)
       (include_images : Option (List String)) (per : String → Option PerImageSettings)
       (out : CleanupStatistics × List ImageTag × List String),
       clean_old_images catalog tagsOf deleteOk now days_old true keep_minimum
         include_images per = .ok out →
       out.2.2 = [] ∧ out.1.errors = 0) ∧
    (∀ (catalog : List String) (tagsOf : String → List ImageTag)
       (deleteOk : String → Bool) (now : Int) (days_old keep_minimum : Nat)
       (include_images : Option (List String)) (per : String → Option PerImageSettings),
       (∀ n ∈ selectImages catalog include_images, ∀ t ∈ tagsOf n, (tagDate t).isSome) →
       (∀ p, deleteOk p = true) →
       ∃ st2 ex http2,
         clean_old_images catalog tagsOf deleteOk now days_old true keep_minimum
           include_images per = .ok (st2, ex, []) ∧
         clean_old_images catalog tagsOf deleteOk now days_old false keep_minimum
           include_images per = .ok (st2, ex, http2)) := by
  refine ⟨fun deleteOk p => rfl, ?_, ?_⟩
  · intro catalog tagsOf deleteOk now days_old keep_minimum include_images per out h
    obtain ⟨he, hl⟩ := cleanImages_dry tagsOf deleteOk now days_old keep_minimum per
      (selectImages catalog include_images) statsZero out h
    exact ⟨hl, he⟩
  · intro catalog tagsOf deleteOk now days_old keep_minimum include_images per hpar hp
    have hdry := cleanImages_eq tagsOf deleteOk now days_old keep_minimum true per
      (selectImages catalog include_images) statsZero hpar
    have hlive := cleanImages_eq tagsOf deleteOk now days_old keep_minimum false per
      (selectImages catalog include_images) statsZero hpar
    simp only [delSucceeds, hp, Bool.true_or, Bool.false_or] at hdry hlive
    exact ⟨_, _, _, hdry, hlive⟩

theorem c6_witness :
    (∀ n ∈ selectImages ["app"] none, ∀ t ∈ tagsOfEx n, (tagDate t).isSome) ∧
    (∀ p, allOk p = true) ∧
    (∃ st2 ex http2,
      clean_old_images ["app"] tagsOfEx allOk nowEx 30 true 1 none perNone =
        .ok (st2, ex, []) ∧
      clean_old_images ["app"] tagsOfEx allOk nowEx 30 false 1 none perNone =
        .ok (st2, ex, http2)) :=
  ⟨by decide, fun p => rfl,
   c6_dry_run_law.2.2 ["app"] tagsOfEx allOk nowEx 30 1 none perNone (by decide)
     (fun p => rfl)⟩

theorem length_filter_split_old (l : List ImageTag) (c : Int) (dOk : String → Bool) :
    (l.filter (fun t => isOld c t && delSucceeds dOk false t)).length +
      (l.filter (fun t => isOld c t && !delSucceeds dOk false t)).length =
      (l.filter (fun t => isOld c t)).length := by
  induction l with
  | nil => rfl
  | cons t ts ih =>
    by_cases hp : isOld c t = true <;> by_cases hq : delSucceeds dOk false t = true <;>
      simp [List.filter_cons, hp, hq] <;> omega

theorem sum_split_clean (tagsOf : String → List ImageTag)
    (per : String → Option PerImageSettings) (days_old keep_minimum : Nat) (now : Int)
    (dOk : String → Bool) (names : List String) :
    (names.map (fun n => ((imageCand tagsOf per days_old keep_minimum n).filter
        (fun t => isOld (imageCutoff per days_old keep_minimum now n) t &&
                  delSucceeds dOk false t)).length)).sum +
      (names.map (fun n => ((imageCand tagsOf per days_old keep_minimum n).filter
        (fun t => isOld (imageCutoff per days_old keep_minimum now n) t &&
                  !delSucceeds dOk false t)).length)).sum =
      (names.map (fun n => ((imageCand tagsOf per days_old keep_minimum n).filter
        (fun t => isOld (imageCutoff per days_old keep_minimum now n) t)).length)).sum := by
  induction names with
  | nil => rfl
  | cons n ns ih =>
    simp only [List.map_cons, List.sum_cons]
    have hsplit := length_filter_split_old (imageCand tagsOf per days_old keep_minimum n)
      (imageCutoff per days_old keep_minimum now n) dOk
    omega

theorem filter_flatten_length (ll : List (List ImageTag)) (q : ImageTag → Bool) :
    ((ll.flatten).filter q).length = (ll.map (fun l => (l.filter q).length)).sum := by
  induction ll with
  | nil => rfl
  | cons a l ih =>
    simp only [List.flatten_cons, List.filter_append, List.length_append, List.map_cons,
      List.sum_cons, ih]

theorem filter_fail_imageOldList (tagsOf : String → List ImageTag)
    (per : String → Option PerImageSettings) (days_old keep_minimum : Nat) (now : Int)
    (dOk : String → Bool) (n : String) :
    ((imageOldList tagsOf per days_old keep_minimum now n).filter
        (fun t => !dOk t.path)).length =
      ((imageCand tagsOf per days_old keep_minimum n).filter
        (fun t => isOld (imageCutoff per days_old keep_minimum now n) t &&
                  !delSucceeds dOk false t)).length := by
  simp only [imageOldList, List.filter_filter, delSucceeds, Bool.false_or]
  congr 1
  apply List.filter_congr
  intro t _
  exact Bool.and_comm _ _

/-- Claim C7: in live mode a failed delete costs exactly one errors
increment for that tag and halts nothing.  For any two delete outcomes
(e.g. one where a delete fails and one where it succeeds), the two live
runs check the same tags, keep the same tags, call the executor on the
same candidates in the same order, issue the same requests, and satisfy
deleted + errors = number of deletion candidates in both; each run's
errors counter is exactly the number of its executor calls whose delete
failed. -/
theorem c7_delete_failure_isolated (catalog : List String)
    (tagsOf : String → List ImageTag) (deleteOk deleteOk2 : String → Bool)
    (now : Int) (days_old keep_minimum : Nat)
    (include_images : Option (List String)) (per : String → Option PerImageSettings)
    (hpar : ∀ n ∈ selectImages catalog include_images, ∀ t ∈ tagsOf n,
      (tagDate t).isSome) :
    ∃ st ex http st2 ex2 http2,
      clean_old_images catalog tagsOf deleteOk now days_old false keep_minimum
        include_images per = .ok (st, ex, http) ∧
      clean_old_images catalog tagsOf deleteOk2 now days_old false keep_minimum
        include_images per = .ok (st2, ex2, http2) ∧
      st2.checked = st.checked ∧ st2.kept = st.kept ∧ ex2 = ex ∧ http2 = http ∧
      st2.deleted + st2.errors = st.deleted + st.errors ∧
      st.errors = (ex.filter (fun t => !deleteOk t.path)).length ∧
      st2.errors = (ex.filter (fun t => !deleteOk2 t.path)).length := by
  have hA := cleanImages_eq tagsOf deleteOk now days_old keep_minimum false per
    (selectImages catalog include_images) statsZero hpar
  have hB := cleanImages_eq tagsOf deleteOk2 now days_old keep_minimum false per
    (selectImages catalog include_images) statsZero hpar
  refine ⟨_, _, _, _, _, _, hA, hB, rfl, rfl, rfl, rfl, ?_, ?_, ?_⟩
  · have k1 := sum_split_clean tagsOf per days_old keep_minimum now deleteOk
      (selectImages catalog include_images)
    have k2 := sum_split_clean tagsOf per days_old keep_minimum now deleteOk2
      (selectImages catalog include_images)
    dsimp only
    omega
  · rw [filter_flatten_length]
    simp only [List.map_map, Function.comp_def, filter_fail_imageOldList]
    dsimp only [statsZero]
    omega
  · rw [filter_flatten_length]
    simp only [List.map_map, Function.comp_def, filter_fail_imageOldList]
    dsimp only [statsZero]
    omega

def failV2 : String → Bool := fun p => !(p == "app/v2")

theorem c7_witness :
    (∀ n ∈ selectImages ["app"] none, ∀ t ∈ tagsOfEx n, (tagDate t).isSome) ∧
    (∃ st ex http st2 ex2 http2,
      clean_old_images ["app"] tagsOfEx allOk nowEx 30 false 1 none perNone =
        .ok (st, ex, http) ∧
      clean_old_images ["app"] tagsOfEx failV2 nowEx 30 false 1 none perNone =
        .ok (st2, ex2, http2) ∧
      st2.checked = st.checked ∧ st2.kept = st.kept ∧ ex2 = ex ∧ http2 = http ∧
      st2.deleted + st2.errors = st.deleted + st.errors ∧
      st.errors = (ex.filter (fun t => !allOk t.path)).length ∧
      st2.errors = (ex.filter (fun t => !failV2 t.path)).length) :=
  ⟨by decide,
   c7_delete_failure_isolated ["app"] tagsOfEx allOk failV2 nowEx 30 1 none perNone
     (by decide)⟩

/-- Claim C8: the cutoff is derived once per image from that image's
resolved days-old.  If two per-image settings maps agree on every image
except one, then for every other image the cutoff, the keep-minimum floor,
and the entire per-image processing result (statistics delta, executor
calls, issued requests) are identical. -/
theorem c8_override_isolation (tagsOf : String → List ImageTag)
    (deleteOk : String → Bool) (now : Int) (days_old keep_minimum : Nat)
    (dry_run : Bool) (per1 per2 : String → Option PerImageSettings)
    (st : CleanupStatistics) (i0 : String)
    (h : ∀ j, j ≠ i0 → per1 j = per2 j) :
    ∀ j, j ≠ i0 →
      imageCutoff per1 days_old keep_minimum now j =
        imageCutoff per2 days_old keep_minimum now j ∧
      (sortTagsDesc (tagsOf j)).take (resolveSettings per1 days_old keep_minimum j).2 =
        (sortTagsDesc (tagsOf j)).take (resolveSettings per2 days_old keep_minimum j).2 ∧
      processImage tagsOf deleteOk now days_old keep_minimum dry_run per1 st j =
        processImage tagsOf deleteOk now days_old keep_minimum dry_run per2 st j := by
  intro j hj
  have hr : resolveSettings per1 days_old keep_minimum j =
      resolveSettings per2 days_old keep_minimum j := by
    simp [resolveSettings, h j hj]
  refine ⟨by simp [imageCutoff, hr], by rw [hr], ?_⟩
  simp [processImage, imageCutoff, hr]

def perOverrideA : String → Option PerImageSettings :=
  fun n => if n == "imga" then some ⟨1, 0⟩ else none

theorem c8_witness :
    (∀ j, j ≠ ("imga") → perOverrideA j = perNone j) ∧
    (("imgb" : String) ≠ "imga") ∧
    (imageCutoff perOverrideA 30 1 nowEx ("imgb") =
       imageCutoff perNone 30 1 nowEx ("imgb") ∧
     (sortTagsDesc (tagsOfEx ("imgb"))).take
         (resolveSettings perOverrideA 30 1 ("imgb")).2 =
       (sortTagsDesc (tagsOfEx ("imgb"))).take (resolveSettings perNone 30 1 ("imgb")).2 ∧
     processImage tagsOfEx allOk nowEx 30 1 true perOverrideA statsZero ("imgb") =
       processImage tagsOfEx allOk nowEx 30 1 true perNone statsZero ("imgb")) :=
  ⟨fun j hj => by simp [perOverrideA, perNone, hj], by decide,
   c8_override_isolation tagsOfEx allOk nowEx 30 1 true perOverrideA perNone statsZero
     ("imga") (fun j hj => by simp [perOverrideA, perNone, hj]) ("imgb") (by decide)⟩

/-- Claim C9 as amended: the engine sorts by the raw `modified` string
descending with stable tie-breaking on identical strings (the subsequence
of tags with any fixed key keeps its input order), and for any permutation
of the input the sorted key sequence — hence the keys of the floor and of
the candidate segment for every keep-minimum — is unchanged.  The tag-level
partition itself is not permutation-invariant: equal-key tags straddling
the floor boundary may swap classes (see the counterexample). -/
theorem c9_amended :
    (∀ (l : List ImageTag) (k : String),
       (sortTagsDesc l).filter (fun t => t.modified == k) =
         l.filter (fun t => t.modified == k)) ∧
    (∀ l : List ImageTag,
       List.Sorted strGE ((sortTagsDesc l).map (fun t => t.modified))) ∧
    (∀ (l1 l2 : List ImageTag), l1.Perm l2 →
       (sortTagsDesc l1).map (fun t => t.modified) =
         (sortTagsDesc l2).map (fun t => t.modified) ∧
       ∀ keep_minimum : Nat,
         ((sortTagsDesc l1).take keep_minimum).map (fun t => t.modified) =
           ((sortTagsDesc l2).take keep_minimum).map (fun t => t.modified) ∧
         ((sortTagsDesc l1).drop keep_minimum).map (fun t => t.modified) =
           ((sortTagsDesc l2).drop keep_minimum).map (fun t => t.modified)) := by
  refine ⟨sortTagsDesc_stable, sortTagsDesc_sorted_keys, ?_⟩
  intro l1 l2 h
  have hk := sortTagsDesc_keys_eq_of_perm l1 l2 h
  refine ⟨hk, fun keep_minimum => ⟨?_, ?_⟩⟩
  · rw [List.map_take, List.map_take, hk]
  · rw [List.map_drop, List.map_drop, hk]

/-- Claim C9 counterexample: two tags with identical timestamps but
different paths, keep-minimum 1.  Both input orders are already sorted
(stability), yet the floor (`take 1`) and the candidate segment (`drop 1`)
contain different tags, so the partition into floor and candidates is not
the same under a permutation that only reorders equal-timestamp tags. -/
theorem c9_counter :
    atag.modified = btag9.modified ∧
    List.Perm [atag, btag9] [btag9, atag] ∧
    sortTagsDesc [atag, btag9] = [atag, btag9] ∧
    sortTagsDesc [btag9, atag] = [btag9, atag] ∧
    (sortTagsDesc [atag, btag9]).take 1 ≠ (sortTagsDesc [btag9, atag]).take 1 ∧
    (sortTagsDesc [atag, btag9]).drop 1 ≠ (sortTagsDesc [btag9, atag]).drop 1 := by
  refine ⟨by decide, by decide, by decide, by decide, by decide, by decide⟩

theorem c9_witness :
    List.Perm [atag, btag9] [btag9, atag] ∧
    ((sortTagsDesc [atag, btag9]).map (fun t => t.modified) =
       (sortTagsDesc [btag9, atag]).map (fun t => t.modified) ∧
     ∀ keep_minimum : Nat,
       ((sortTagsDesc [atag, btag9]).take keep_minimum).map (fun t => t.modified) =
         ((sortTagsDesc [btag9, atag]).take keep_minimum).map (fun t => t.modified) ∧
       ((sortTagsDesc [atag, btag9]).drop keep_minimum).map (fun t => t.modified) =
         ((sortTagsDesc [btag9, atag]).drop keep_minimum).map (fun t => t.modified)) :=
  ⟨by decide, c9_amended.2.2 [atag, btag9] [btag9, atag] (by decide)⟩

/-- Claim C10 as amended: an include-list name absent from the catalog is
never processed — it survives no filter step, so no tags are fetched, no
executor call is made and no error recorded for it — and the run equals
the run without that name configured, provided the remaining include list
is still nonempty.  (Python truthiness: an empty include list disables
filtering entirely and processes the whole catalog, so dropping the last
name changes the run; see the counterexample.) -/
theorem c10_ghost_image (catalog : List String) (tagsOf : String → List ImageTag)
    (deleteOk : String → Bool) (now : Int) (days_old : Nat) (dry_run : Bool)
    (keep_minimum : Nat) (per : String → Option PerImageSettings)
    (name : String) (l : List String)
    (hname : name ∉ catalog) (hl : l ≠ []) :
    selectImages catalog (some (name :: l)) = selectImages catalog (some l) ∧
    name ∉ selectImages catalog (some (name :: l)) ∧
    clean_old_images catalog tagsOf deleteOk now days_old dry_run keep_minimum
        (some (name :: l)) per =
      clean_old_images catalog tagsOf deleteOk now days_old dry_run keep_minimum
        (some l) per := by
  have hsel : selectImages catalog (some (name :: l)) = selectImages catalog (some l) := by
    simp only [selectImages, List.isEmpty_cons, Bool.false_eq_true, if_false]
    rw [if_neg (fun hemp => hl (List.isEmpty_iff.mp hemp))]
    apply List.filter_congr
    intro i hi
    have hne : ¬ i = name := fun he => hname (he ▸ hi)
    simp [List.contains_cons, hne]
  refine ⟨hsel, ?_, ?_⟩
  · simp only [selectImages, List.isEmpty_cons, Bool.false_eq_true, if_false]
    intro hmem
    exact hname (List.mem_of_mem_filter hmem)
  · simp only [clean_old_images, hsel]

/-- Claim C10 counterexample: with catalog `[app]` and include list
`[ghost]`, nothing is processed (zero statistics); removing the ghost
leaves the empty include list, which Python treats as falsy, so the whole
catalog is processed instead — the statistics differ. -/
theorem c10_counter :
    clean_old_images ["app"] tagsOfC10 allOk nowEx 30 true 0 (some ["ghost"]) perNone =
      .ok (⟨0, 0, 0, 0⟩, [], []) ∧
    clean_old_images ["app"] tagsOfC10 allOk nowEx 30 true 0 (some []) perNone =
      .ok (⟨1, 1, 0, 0⟩, [tC10], []) ∧
    clean_old_images ["app"] tagsOfC10 allOk nowEx 30 true 0 (some ["ghost"]) perNone ≠
      clean_old_images ["app"] tagsOfC10 allOk nowEx 30 true 0 (some []) perNone := by
  refine ⟨by decide, by decide, by decide⟩

theorem c10_witness :
    (("ghost" : String) ∉ ["app"]) ∧ (["app"] : List String) ≠ [] ∧
    (selectImages ["app"] (some ("ghost" :: ["app"])) = selectImages ["app"] (some ["app"]) ∧
     ("ghost" : String) ∉ selectImages ["app"] (some ("ghost" :: ["app"])) ∧
     clean_old_images ["app"] tagsOfC10 allOk nowEx 30 true 0
         (some ("ghost" :: ["app"])) perNone =
       clean_old_images ["app"] tagsOfC10 allOk nowEx 30 true 0 (some ["app"]) perNone) :=
  ⟨by decide, by decide,
   c10_ghost_image ["app"] tagsOfC10 allOk nowEx 30 true 0 perNone ("ghost") ["app"]
     (by decide) (by decide)⟩
